import Mathlib

/-!
# Verification of the lgtm-cli batch-reconciliation core

A shallow embedding, in Lean 4, of the reconciliation core of the `lgtm-cli`
repository (cache of followed projects, URL matching, confirmation guard,
chunked bulk-add, the follow loop, and the bounded-concurrency unfollow pool),
together with theorems settling the specification claims about it.

Go strings are modelled as `List Char`; Go's `strings.TrimSuffix`/`HasSuffix`
and the lowercase conversion are embedded over that representation.
-/

/-- A Go string, modelled as its sequence of characters. -/
abbrev GoStr := List Char

/-- A Go `error` payload (the error message). -/
abbrev GoErr := GoStr

/-- Convert a Lean string literal to the Go-string model. -/
def goStr (s : String) : GoStr := s.data

/-- Embedding of `ToLower` (strings.ToLower): lowercases every character. -/
def goToLower (s : GoStr) : GoStr := s.map Char.toLower

/-- Embedding of Go `strings.HasSuffix s suffix`. -/
def hasSuffix (s suffix : GoStr) : Bool := decide (suffix <:+ s)

/-- Embedding of Go `strings.TrimSuffix s suffix`: drops the suffix when
present, otherwise returns `s` unchanged. -/
def trimSuffix (s suffix : GoStr) : GoStr :=
  if hasSuffix s suffix then s.take (s.length - suffix.length) else s

/-- The literal `".git"`. -/
def dotGit : GoStr := goStr ".git"

/-- Embedding of `trimDotGit` (src/cli.go): `strings.TrimSuffix(s, ".git")`. -/
def trimDotGit (s : GoStr) : GoStr := trimSuffix s dotGit

/-- Embedding of `isProtoMatch` (src/cli.go): trims a `.git` suffix from both
sides, then compares case-insensitively. -/
def isProtoMatch (cloneURL : GoStr) (projectURL : GoStr) : Bool :=
  let cloneURL' := trimSuffix cloneURL dotGit
  let projectURL' := trimSuffix projectURL dotGit
  goToLower projectURL' == goToLower cloneURL'

theorem hasSuffix_eq_true_iff (s suffix : GoStr) :
    hasSuffix s suffix = true ↔ suffix <:+ s := by
  simp [hasSuffix]

theorem trimSuffix_of_hasSuffix_eq_false (s suffix : GoStr)
    (h : hasSuffix s suffix = false) : trimSuffix s suffix = s := by
  simp [trimSuffix, h]

theorem trimSuffix_append (c g : GoStr) : trimSuffix (c ++ g) g = c := by
  have hsuf : hasSuffix (c ++ g) g = true := by
    simp [hasSuffix]
  simp only [trimSuffix, hsuf, if_true, List.length_append]
  have : c.length + g.length - g.length = c.length := by omega
  rw [this, List.take_left]

/-- C5 counterexample: the claimed idempotence fails at the concrete URL
`"a.git.git"` — one application of `trimDotGit` yields `"a.git"`, a second
strips again, so `NormalizeURL` (i.e. `trimDotGit`) is not idempotent. -/
theorem trimDotGit_not_idempotent_cx :
    trimDotGit (trimDotGit (goStr "a.git.git")) ≠ trimDotGit (goStr "a.git.git") := by
  decide

/-- C5 (amended): `trimDotGit` is idempotent on every URL whose trimmed form
does not itself still end in `".git"` (equivalently, on every URL not ending
in `".git.git"`); the second application then leaves the string unchanged. -/
theorem trimDotGit_idem (u : GoStr)
    (h : hasSuffix (trimDotGit u) dotGit = false) :
    trimDotGit (trimDotGit u) = trimDotGit u :=
  trimSuffix_of_hasSuffix_eq_false (trimDotGit u) dotGit h

/-- Witness for C5's amended theorem at `u = "https://github.com/a/b.git"`. -/
theorem trimDotGit_idem_witness :
    hasSuffix (trimDotGit (goStr "https://github.com/a/b.git")) dotGit = false
      ∧ trimDotGit (trimDotGit (goStr "https://github.com/a/b.git"))
          = trimDotGit (goStr "https://github.com/a/b.git") :=
  ⟨by decide, trimDotGit_idem (goStr "https://github.com/a/b.git") (by decide)⟩

/-- C6 counterexample: `.git`-suffix symmetry of `isProtoMatch` fails when the
clone URL already ends in `".git"`: with `c = "a.git"` and `u = "a"`,
`isProtoMatch c u = true` but `isProtoMatch (c ++ ".git") u = false`. -/
theorem isProtoMatch_dotGit_cx :
    ¬ (isProtoMatch (goStr "a.git") (goStr "a")
        = isProtoMatch (goStr "a.git" ++ dotGit) (goStr "a")) := by
  decide

/-- C6 (amended): for clone URLs `c` and candidate URLs `u` that do not already
end in `".git"`, matching is symmetric with respect to appending a `".git"`
suffix on either side: `isProtoMatch c u = isProtoMatch (c ++ ".git") u` and
`isProtoMatch c u = isProtoMatch c (u ++ ".git")`. -/
theorem isProtoMatch_dotGit_symm (c u : GoStr)
    (hc : hasSuffix c dotGit = false) (hu : hasSuffix u dotGit = false) :
    isProtoMatch c u = isProtoMatch (c ++ dotGit) u
      ∧ isProtoMatch c u = isProtoMatch c (u ++ dotGit) := by
  constructor
  · simp only [isProtoMatch, trimSuffix_append,
      trimSuffix_of_hasSuffix_eq_false c dotGit hc]
  · simp only [isProtoMatch, trimSuffix_append,
      trimSuffix_of_hasSuffix_eq_false u dotGit hu]

/-- Witness for C6's amended theorem at `c = "https://github.com/a/b"`,
`u = "https://GitHub.com/A/B"`. -/
theorem isProtoMatch_dotGit_symm_witness :
    hasSuffix (goStr "https://github.com/a/b") dotGit = false
      ∧ hasSuffix (goStr "https://GitHub.com/A/B") dotGit = false
      ∧ (isProtoMatch (goStr "https://github.com/a/b") (goStr "https://GitHub.com/A/B")
          = isProtoMatch (goStr "https://github.com/a/b" ++ dotGit) (goStr "https://GitHub.com/A/B")
        ∧ isProtoMatch (goStr "https://github.com/a/b") (goStr "https://GitHub.com/A/B")
          = isProtoMatch (goStr "https://github.com/a/b") (goStr "https://GitHub.com/A/B" ++ dotGit)) :=
  ⟨by decide, by decide,
    isProtoMatch_dotGit_symm (goStr "https://github.com/a/b")
      (goStr "https://GitHub.com/A/B") (by decide) (by decide)⟩

/-! ## Data model (src/api.go) -/

/-- Embedding of `ExternalURL` (src/api.go). -/
structure ExternalURL where
  url : GoStr
  name : GoStr
  theme : GoStr
  deriving DecidableEq

/-- Embedding of `TotalLanguageChurn` (src/api.go). -/
structure TotalLanguageChurn where
  lang : GoStr
  churn : Int
  deriving DecidableEq

/-- Embedding of `Project` (src/api.go): a followed, fully-built repository.
The `Modes` map is modelled as an association list. -/
structure Project where
  key : GoStr
  languages : List GoStr
  totalLanguageChurn : List TotalLanguageChurn
  repoProvider : GoStr
  displayName : GoStr
  slug : GoStr
  externalURL : ExternalURL
  adminURL : GoStr
  modes : List (GoStr × GoStr)
  deriving DecidableEq

/-- Embedding of `ProtoProject` (src/api.go): a followed repository not yet
fully built. -/
structure ProtoProject where
  key : GoStr
  displayName : GoStr
  state : GoStr
  buildAttemptKey : GoStr
  nextBuildStarted : Bool
  cloneURL : GoStr
  deriving DecidableEq

/-- Embedding of `Envelope` (src/api.go): the duck-typed JSON response union
that may carry a real-project payload, a proto-project payload, both, or
neither. A `none` field models a JSON `null`/absent payload; a `some` field
models a present payload (already decoded — the memoizing `parsedproject`
fields and the panic on malformed JSON are outside this model). -/
structure Envelope where
  rawRealProject : Option Project
  rawProtoProject : Option ProtoProject
  deriving DecidableEq

/-- Embedding of `Envelope.MustGetProject` (src/api.go): returns the decoded
real-project payload, or `none` when the raw payload is absent. -/
def Envelope.MustGetProject (env : Envelope) : Option Project :=
  env.rawRealProject

/-- Embedding of `Envelope.MustGetProtoProject` (src/api.go). -/
def Envelope.MustGetProtoProject (env : Envelope) : Option ProtoProject :=
  env.rawProtoProject

/-- Embedding of `Envelope.IsKnown` (src/api.go):
`isFirstBuild := MustGetProject() == nil && MustGetProtoProject() != nil;
return !isFirstBuild`. -/
def Envelope.IsKnown (env : Envelope) : Bool :=
  !(env.MustGetProject.isNone && env.MustGetProtoProject.isSome)

/-! ## Followed-project cache (src/cli.go) -/

/-- Embedding of `isAlreadyFollowedProject` (src/cli.go): linear scan of the
followed projects, case-insensitive comparison of the candidate URL against
each project's `ExternalURL.URL`; returns the first match. -/
def isAlreadyFollowedProject : List Project → GoStr → Option Project
  | [], _ => none
  | pr :: rest, projectURL =>
    if goToLower projectURL == goToLower pr.externalURL.url then some pr
    else isAlreadyFollowedProject rest projectURL

/-- Embedding of `isAlreadyFollowedProto` (src/cli.go): linear scan of the
followed proto-projects using `isProtoMatch`; returns the first match. -/
def isAlreadyFollowedProto : List ProtoProject → GoStr → Option ProtoProject
  | [], _ => none
  | pr :: rest, projectURL =>
    if isProtoMatch pr.cloneURL projectURL then some pr
    else isAlreadyFollowedProto rest projectURL

/-- Embedding of `FollowedProjectCache` (src/cli.go). The `sync.RWMutex` and
the embedded `*Client` are not part of the purely functional state: the mutex
makes each method a single atomic step of this model, and the remote client is
passed explicitly to `Refresh`. -/
structure FollowedProjectCache where
  projects : List Project
  proto : List ProtoProject
  deriving DecidableEq

/-- Embedding of `FollowedProjectCache.IsFollowed` (src/cli.go). -/
def FollowedProjectCache.IsFollowed (fpc : FollowedProjectCache) (repoURL : GoStr) : Bool :=
  (isAlreadyFollowedProject fpc.projects repoURL).isSome
    || (isAlreadyFollowedProto fpc.proto repoURL).isSome

/-- Embedding of `FollowedProjectCache.HasAny` (src/cli.go): alias of
`IsFollowed`. -/
def FollowedProjectCache.HasAny (fpc : FollowedProjectCache) (repoURL : GoStr) : Bool :=
  fpc.IsFollowed repoURL

/-- First-occurrence deduplication, generic helper: drops any element already
seen (`seen` accumulates processed elements). -/
def dedupAux {α : Type} [DecidableEq α] (seen : List α) : List α → List α
  | [] => []
  | x :: xs => if x ∈ seen then dedupAux seen xs else x :: dedupAux (x :: seen) xs

/-- Modelled from the spec: `Deduplicate` comes from the external
`github.com/gagliardetto/utilz` library, whose source is not part of this
repository; the spec describes `RemoveFollowed`'s result as "deduplicated,
preserving first-seen order", so `Deduplicate` keeps the first occurrence of
each element and drops later duplicates. -/
def Deduplicate (l : List GoStr) : List GoStr := dedupAux [] l

/-- Embedding of `FollowedProjectCache.RemoveFollowed` (src/cli.go):
`ref.Filter` keeps, in order, the candidates for which `HasAny` is false, and
the result is passed through `Deduplicate`. -/
def FollowedProjectCache.RemoveFollowed (fpc : FollowedProjectCache)
    (candidates : List GoStr) : List GoStr :=
  Deduplicate (candidates.filter (fun repoURL => !(fpc.HasAny repoURL)))

theorem mem_dedupAux {α : Type} [DecidableEq α] (l : List α) :
    ∀ (seen : List α) (x : α), x ∈ dedupAux seen l ↔ (x ∈ l ∧ x ∉ seen) := by
  induction l with
  | nil => intro seen x; simp [dedupAux]
  | cons y ys ih =>
    intro seen x
    by_cases hy : y ∈ seen
    · simp only [dedupAux, if_pos hy, ih, List.mem_cons]
      by_cases hxy : x = y
      · subst hxy; tauto
      · tauto
    · simp only [dedupAux, if_neg hy, List.mem_cons, ih]
      by_cases hxy : x = y
      · subst hxy; tauto
      · tauto

theorem nodup_dedupAux {α : Type} [DecidableEq α] (l : List α) :
    ∀ seen : List α, (dedupAux seen l).Nodup := by
  induction l with
  | nil => intro seen; simp [dedupAux]
  | cons y ys ih =>
    intro seen
    by_cases hy : y ∈ seen
    · simpa [dedupAux, hy] using ih seen
    · simp only [dedupAux, if_neg hy, List.nodup_cons]
      refine ⟨fun hmem => ?_, ih (y :: seen)⟩
      exact ((mem_dedupAux ys (y :: seen) y).mp hmem).2 (List.mem_cons_self y seen)

theorem sublist_dedupAux {α : Type} [DecidableEq α] (l : List α) :
    ∀ seen : List α, (dedupAux seen l).Sublist l := by
  induction l with
  | nil => intro seen; simp [dedupAux]
  | cons y ys ih =>
    intro seen
    by_cases hy : y ∈ seen
    · simpa [dedupAux, hy] using (ih seen).trans (List.sublist_cons_self y ys)
    · simpa [dedupAux, hy] using (ih (y :: seen)).cons₂ y

/-- C1: `RemoveFollowed` returns exactly the candidates for which `IsFollowed`
is false — it equals the first-occurrence deduplication of the order-preserving
filter of the candidates; consequently its elements are exactly the
non-followed candidates (so the delta is a subset of the candidates and
disjoint from the followed set of the snapshot), it contains no duplicates,
and it is a sublist (first-seen order preserved) of the filtered candidates. -/
theorem RemoveFollowed_correct (fpc : FollowedProjectCache) (candidates : List GoStr) :
    fpc.RemoveFollowed candidates
        = Deduplicate (candidates.filter (fun u => !(fpc.IsFollowed u)))
      ∧ (∀ u, u ∈ fpc.RemoveFollowed candidates
            ↔ (u ∈ candidates ∧ fpc.IsFollowed u = false))
      ∧ (fpc.RemoveFollowed candidates).Nodup
      ∧ (fpc.RemoveFollowed candidates).Sublist
          (candidates.filter (fun u => !(fpc.IsFollowed u))) := by
  refine ⟨rfl, fun u => ?_, nodup_dedupAux _ [], sublist_dedupAux _ []⟩
  simp only [FollowedProjectCache.RemoveFollowed, Deduplicate,
    mem_dedupAux _ [] u, List.not_mem_nil, not_false_iff, and_true,
    List.mem_filter, FollowedProjectCache.HasAny, Bool.not_eq_true',
    Bool.not_eq_eq_eq_not, Bool.not_true]

/-- Witness for C1 at a concrete cache (one followed project `a/b`, one
followed proto-project `c/d.git`) and candidate list with a duplicate: the
delta keeps exactly the non-followed candidate, once. -/
theorem RemoveFollowed_correct_witness :
    goStr "https://github.com/a/c"
        ∈ FollowedProjectCache.RemoveFollowed
            ⟨[⟨goStr "k1", [], [], goStr "gh", goStr "a/b", goStr "a/b",
                ⟨goStr "https://github.com/a/b", goStr "a/b", goStr "g"⟩,
                goStr "", []⟩],
              [⟨goStr "k2", goStr "c/d", goStr "s", goStr "b", false,
                goStr "https://github.com/c/d.git"⟩]⟩
            [goStr "https://github.com/a/b", goStr "https://github.com/a/c",
              goStr "https://github.com/a/c", goStr "https://github.com/c/d"]
      ∧ FollowedProjectCache.IsFollowed
            ⟨[⟨goStr "k1", [], [], goStr "gh", goStr "a/b", goStr "a/b",
                ⟨goStr "https://github.com/a/b", goStr "a/b", goStr "g"⟩,
                goStr "", []⟩],
              [⟨goStr "k2", goStr "c/d", goStr "s", goStr "b", false,
                goStr "https://github.com/c/d.git"⟩]⟩
            (goStr "https://github.com/a/c") = false :=
  ⟨((RemoveFollowed_correct _ _).2.1 _).mpr ⟨by decide, by decide⟩, by decide⟩

/-- C10: `Envelope.IsKnown` returns `false` exactly when the real-project
payload is absent and the proto-project payload is present; in particular an
envelope carrying neither payload is reported as already known. -/
theorem IsKnown_characterization :
    (∀ env : Envelope,
        env.IsKnown = false
          ↔ (env.rawRealProject = none ∧ env.rawProtoProject ≠ none))
      ∧ (∀ env : Envelope,
          env.rawRealProject = none → env.rawProtoProject = none →
            env.IsKnown = true) := by
  constructor
  · rintro ⟨rp, pp⟩
    cases rp <;> cases pp <;>
      simp [Envelope.IsKnown, Envelope.MustGetProject, Envelope.MustGetProtoProject]
  · rintro ⟨rp, pp⟩ h1 h2
    simp only at h1 h2
    subst h1; subst h2
    rfl

/-- Witness for C10 at the concrete envelope carrying neither payload. -/
theorem IsKnown_characterization_witness :
    Envelope.IsKnown ⟨none, none⟩ = true :=
  IsKnown_characterization.2 ⟨none, none⟩ rfl rfl

/-! ## Refresh and the remote list call (src/cli.go, src/api.go) -/

/-- The remote operations visible to this model, used to trace which calls a
function performs. -/
inductive RemoteCall
  | listFollowedProjects
  | followProject (url : GoStr)
  | unfollowProject (key : GoStr)
  | unfollowProtoProject (key : GoStr)
  deriving DecidableEq

/-- Embedding of `Client.ListFollowedProjects` (src/api.go), from the decoded
response onward: the transport either fails with an error or yields the
response's `Data` envelopes; on success the envelopes are scanned in order and
each non-nil real-project / proto-project payload is appended to the
respective list. -/
def ListFollowedProjects (remote : Except GoErr (List Envelope)) :
    Except GoErr (List Project × List ProtoProject) :=
  match remote with
  | .error e => .error e
  | .ok data =>
    .ok (data.filterMap Envelope.MustGetProject,
         data.filterMap Envelope.MustGetProtoProject)

/-- Embedding of `FollowedProjectCache.Refresh` (src/cli.go). The remote side
is modelled by the one response the wrapped client would produce; the result
records (i) the remote calls performed, (ii) the cache state after the method
returns (the Go method mutates the receiver under `fpc.mu.Lock()`; both slice
fields are replaced in that single critical section, which this model renders
as one atomic state change), and (iii) the returned error, wrapped with the
`"error while getting list of followed projects: "` prefix on failure. -/
def FollowedProjectCache.Refresh (fpc : FollowedProjectCache)
    (remote : Except GoErr (List Envelope)) :
    List RemoteCall × FollowedProjectCache × Option GoErr :=
  ([RemoteCall.listFollowedProjects],
    match ListFollowedProjects remote with
    | .error e =>
      (fpc, some (goStr "error while getting list of followed projects: " ++ e))
    | .ok (projects, protoProjects) =>
      (⟨projects, protoProjects⟩, none))

/-- C3: `Refresh` performs exactly one remote call, `ListFollowedProjects`;
when that call fails the error is returned (wrapped) and the previously stored
snapshot is left unchanged; when it succeeds both the projects and the
proto-projects slices are replaced in one atomic update with the decoded
response payloads, and no error is returned. -/
theorem Refresh_correct (fpc : FollowedProjectCache)
    (remote : Except GoErr (List Envelope)) :
    (fpc.Refresh remote).1 = [RemoteCall.listFollowedProjects]
      ∧ (∀ e, remote = .error e →
          (fpc.Refresh remote).2.1 = fpc
            ∧ (fpc.Refresh remote).2.2
                = some (goStr "error while getting list of followed projects: " ++ e))
      ∧ (∀ data, remote = .ok data →
          (fpc.Refresh remote).2.1
              = ⟨data.filterMap Envelope.MustGetProject,
                 data.filterMap Envelope.MustGetProtoProject⟩
            ∧ (fpc.Refresh remote).2.2 = none) := by
  refine ⟨rfl, ?_, ?_⟩
  · rintro e rfl
    exact ⟨rfl, rfl⟩
  · rintro data rfl
    exact ⟨rfl, rfl⟩

/-- Witness for C3 at a concrete cache, a failing remote (`"timeout"`) and a
succeeding remote carrying one envelope. -/
theorem Refresh_correct_witness :
    (FollowedProjectCache.Refresh ⟨[], []⟩ (.error (goStr "timeout"))).2.1 = ⟨[], []⟩
      ∧ (FollowedProjectCache.Refresh ⟨[], []⟩ (.error (goStr "timeout"))).2.2
          = some (goStr "error while getting list of followed projects: " ++ goStr "timeout")
      ∧ (FollowedProjectCache.Refresh ⟨[], []⟩
            (.ok [⟨none, some ⟨goStr "k", goStr "d", goStr "s", goStr "b", false,
                    goStr "u"⟩⟩])).2.2 = none :=
  ⟨((Refresh_correct ⟨[], []⟩ (.error (goStr "timeout"))).2.1 _ rfl).1,
    ((Refresh_correct ⟨[], []⟩ (.error (goStr "timeout"))).2.1 _ rfl).2,
    ((Refresh_correct ⟨[], []⟩ (.ok _)).2.2 _ rfl).2⟩

/-! ## Glob patterns and the unfollow confirmation guard (src/cli.go) -/

/-- Embedding of `getGlobsThatMatchEverything` (src/cli.go): keeps, in order,
every pattern that ends in `"/*/*"` or ends in `"github.com/*"` (the loop with
`res = append(res, pattern)` is an order-preserving filter). -/
def getGlobsThatMatchEverything (patterns : List GoStr) : List GoStr :=
  patterns.filter (fun pattern =>
    hasSuffix pattern (goStr "/*/*") || hasSuffix pattern (goStr "github.com/*"))

/-- Modelled from the spec: shell-glob matching with the `*` wildcard, the
matching primitive behind `HasMatch` of the external
`github.com/gagliardetto/utilz` library (not part of this repository) — "
standard shell-glob semantics (`*` wildcard)". `*` matches any (possibly
empty) character sequence. -/
def globMatch : GoStr → GoStr → Bool
  | [], s => s.isEmpty
  | p :: ps, s =>
    if p = '*' then
      globMatch ps s
        || (match s with
            | [] => false
            | _ :: s' => globMatch (p :: ps) s')
    else
      match s with
      | [] => false
      | c :: s' => p == c && globMatch ps s'
  termination_by pattern s => (pattern.length, s.length)

/-- Modelled from the spec: `HasMatch` of the external utilz library (not part
of this repository) — "applied to the normalized, lower-cased candidate
against each pattern in order; returns the first matching pattern". -/
def HasMatch (s : GoStr) (patterns : List GoStr) : Option GoStr :=
  patterns.find? (fun pattern => globMatch pattern (goToLower s))

/-- One queued remote unfollow operation of the unfollow command. -/
structure UnfollowCall where
  isProto : Bool
  key : GoStr
  deriving DecidableEq

/-- Embedding of the cached branch of the unfollow command Action
(src/cli.go): the followed projects whose `ExternalURL.URL` matches one of the
patterns are unfollowed as projects, and the followed proto-projects whose
`.git`-trimmed `CloneURL` matches are unfollowed as proto-projects. -/
def unfollowCallsFor (cache : FollowedProjectCache) (patterns : List GoStr) :
    List UnfollowCall :=
  (cache.projects.filter
      (fun pr => (HasMatch pr.externalURL.url patterns).isSome)).map
      (fun pr => ⟨false, pr.key⟩)
    ++ (cache.proto.filter
        (fun pr => (HasMatch (trimDotGit pr.cloneURL) patterns).isSome)).map
        (fun pr => ⟨true, pr.key⟩)

/-- Embedding of the unfollow command Action (src/cli.go) around its
confirmation guard: when `getGlobsThatMatchEverything` detects at least one
match-everything pattern, `CLIMustConfirmYes` is reached before any unfollower
is constructed. `userConfirms` models the user's answer (Modelled from the
spec: `CLIMustConfirmYes` comes from the external utilz library and "must
force an explicit user confirmation before proceeding"; declining terminates
the command). `none` means the command stopped with zero unfollow calls
issued; `some calls` are the unfollow operations it goes on to dispatch. -/
def unfollowCommand (patterns : List GoStr) (userConfirms : Bool)
    (cache : FollowedProjectCache) : Option (List UnfollowCall) :=
  let matchAllPatterns := getGlobsThatMatchEverything patterns
  if 0 < matchAllPatterns.length ∧ userConfirms = false then none
  else some (unfollowCallsFor cache patterns)

/-- C7: `getGlobsThatMatchEverything` returns exactly the patterns ending in
`"/*/*"` or in the literal `"github.com/*"` (the hardcoded `<host>/*` form),
and when at least one such pattern is detected the unfollow command requires
an explicit confirmation: without it, the command stops and zero unfollow
calls are issued. -/
theorem getGlobsThatMatchEverything_guard (patterns : List GoStr)
    (userConfirms : Bool) (cache : FollowedProjectCache) :
    (∀ p, p ∈ getGlobsThatMatchEverything patterns
        ↔ (p ∈ patterns
            ∧ (hasSuffix p (goStr "/*/*") = true
                ∨ hasSuffix p (goStr "github.com/*") = true)))
      ∧ (getGlobsThatMatchEverything patterns ≠ [] → userConfirms = false →
          unfollowCommand patterns userConfirms cache = none) := by
  constructor
  · intro p
    simp [getGlobsThatMatchEverything, List.mem_filter]
  · intro hne hconf
    have hlen : 0 < (getGlobsThatMatchEverything patterns).length :=
      List.length_pos.mpr hne
    simp [unfollowCommand, hlen, hconf]

/-- Witness for C7 at the concrete pattern list `["github.com/*"]` with a
declining user: the guard aborts, so zero unfollow calls are issued. -/
theorem getGlobsThatMatchEverything_guard_witness :
    getGlobsThatMatchEverything [goStr "github.com/*"] ≠ []
      ∧ unfollowCommand [goStr "github.com/*"] false ⟨[], []⟩ = none :=
  ⟨by decide,
    (getGlobsThatMatchEverything_guard [goStr "github.com/*"] false ⟨[], []⟩).2
      (by decide) rfl⟩

/-! ## Chunked bulk add (src/cli.go) -/

/-- Embedding of `calcChunkCount` (src/cli.go): `partsNumber := total /
chunkSize`, set to `1` when `total < chunkSize`, otherwise incremented. -/
def calcChunkCount (total chunkSize : Nat) : Nat :=
  let partsNumber := total / chunkSize
  if total < chunkSize then 1 else partsNumber + 1

/-- Contiguous chunks of size `k` (the last one possibly shorter); with
`k = 0` the whole list is one chunk. -/
def chunksOf {α : Type} (k : Nat) : List α → List (List α)
  | [] => []
  | x :: xs =>
    if h : k = 0 then [x :: xs]
    else (x :: xs).take k :: chunksOf k ((x :: xs).drop k)
  termination_by l => l.length
  decreasing_by simp [List.length_drop]; omega

/-- Modelled from the spec: `SplitStringSlice` comes from the external
`github.com/gagliardetto/utilz` library (not part of this repository); per the
spec the keys are "chunked externally into batches", so it splits the slice
into `parts` contiguous, order-preserving chunks of near-equal size
(`⌈len/parts⌉` elements per chunk). -/
def SplitStringSlice (parts : Nat) (slice : List GoStr) : List (List GoStr) :=
  if parts = 0 then [] else chunksOf ((slice.length + parts - 1) / parts) slice

/-- Embedding of the chunking step of the add-to-list command Action
(src/cli.go): `partsNumber := calcChunkCount(len(keys), 100); chunks :=
SplitStringSlice(partsNumber, keys)`; each chunk is then passed to one
`Client.AddProjectToSelection` call. -/
def addToListChunks (projectKeys : List GoStr) : List (List GoStr) :=
  SplitStringSlice (calcChunkCount projectKeys.length 100) projectKeys

theorem flatten_chunksOf {α : Type} (k : Nat) :
    ∀ l : List α, (chunksOf k l).flatten = l
  | [] => by simp [chunksOf]
  | x :: xs => by
    by_cases h : k = 0
    · simp [chunksOf, h]
    · rw [chunksOf, dif_neg h]
      simp only [List.flatten_cons]
      rw [flatten_chunksOf k ((x :: xs).drop k)]
      exact List.take_append_drop k (x :: xs)
  termination_by l => l.length
  decreasing_by simp [List.length_drop]; omega

theorem chunksOf_length_le {α : Type} (k : Nat) (hk : k ≠ 0) :
    ∀ l : List α, ∀ c ∈ chunksOf k l, c.length ≤ k
  | [] => by simp [chunksOf]
  | x :: xs => by
    intro c hc
    rw [chunksOf, dif_neg hk] at hc
    rcases List.mem_cons.mp hc with rfl | hmem
    · simpa using List.length_take_le k (x :: xs)
    · exact chunksOf_length_le k hk ((x :: xs).drop k) c hmem
  termination_by l => l.length
  decreasing_by simp [List.length_drop]; omega

theorem calcChunkCount_pos (total : Nat) : 0 < calcChunkCount total 100 := by
  simp only [calcChunkCount]
  split <;> omega

theorem ceil_chunk_le_100 (n : Nat) :
    (n + calcChunkCount n 100 - 1) / calcChunkCount n 100 ≤ 100 := by
  simp only [calcChunkCount]
  by_cases h : n < 100
  · simp only [if_pos h]
    omega
  · simp only [if_neg h]
    have hdm := Nat.div_add_mod n 100
    have hmod : n % 100 < 100 := Nat.mod_lt n (by norm_num)
    rw [← Nat.lt_succ_iff, Nat.div_lt_iff_lt_mul (Nat.succ_pos (n / 100))]
    omega

/-- C8: the add-to-list command splits the assembled project keys into chunks
computed by `calcChunkCount` with chunk size 100, such that every chunk — and
hence every individual `Client.AddProjectToSelection` call — receives at most
100 project keys, and the chunks cover exactly the original key list in
order. -/
theorem addToListChunks_le_100 (projectKeys : List GoStr) :
    (∀ chunk ∈ addToListChunks projectKeys, chunk.length ≤ 100)
      ∧ (addToListChunks projectKeys).flatten = projectKeys := by
  have hparts : 0 < calcChunkCount projectKeys.length 100 :=
    calcChunkCount_pos projectKeys.length
  have hne : ¬ calcChunkCount projectKeys.length 100 = 0 := by omega
  constructor
  · intro chunk hc
    unfold addToListChunks SplitStringSlice at hc
    rw [if_neg hne] at hc
    cases hl : projectKeys with
    | nil => subst hl; simp [chunksOf] at hc
    | cons x xs =>
      subst hl
      have hk0 : calcChunkCount (x :: xs).length 100
          ≤ (x :: xs).length + calcChunkCount (x :: xs).length 100 - 1 := by
        simp only [List.length_cons]
        omega
      have hk1 : 0 < ((x :: xs).length + calcChunkCount (x :: xs).length 100 - 1)
          / calcChunkCount (x :: xs).length 100 := Nat.div_pos hk0 hparts
      exact le_trans
        (chunksOf_length_le _ (by omega) (x :: xs) chunk hc)
        (ceil_chunk_le_100 (x :: xs).length)
  · unfold addToListChunks SplitStringSlice
    rw [if_neg hne]
    exact flatten_chunksOf _ projectKeys

/-- Witness for C8 at the concrete key list `["k1", "k2", "k3"]`: the single
resulting chunk holds at most 100 keys. -/
theorem addToListChunks_le_100_witness :
    [goStr "k1", goStr "k2", goStr "k3"]
        ∈ addToListChunks [goStr "k1", goStr "k2", goStr "k3"]
      ∧ ([goStr "k1", goStr "k2", goStr "k3"] : List GoStr).length ≤ 100 :=
  ⟨by simp [addToListChunks, SplitStringSlice, calcChunkCount, chunksOf],
    (addToListChunks_le_100 [goStr "k1", goStr "k2", goStr "k3"]).1
      [goStr "k1", goStr "k2", goStr "k3"]
      (by simp [addToListChunks, SplitStringSlice, calcChunkCount, chunksOf])⟩

/-! ## Follow loop cooldown (src/cli.go) -/

/-- One observable event of the follow loop: a follow call for a target URL,
or a cooldown sleep of the configured `--wait` duration. -/
inductive FollowEv
  | call (u : GoStr)
  | sleep
  deriving DecidableEq

/-- Embedding of the follow loop of the follow command Action (src/cli.go):
for each target the `follower` closure is invoked — modelled by `resp`, giving
the envelope the remote returns, or `none` when the call failed — and when the
returned envelope is not `nil` and not known (`isNew := !envelope.IsKnown()`),
the loop sleeps the configured `--wait` duration before the next iteration.
The trace records, in order, every follow call and every cooldown sleep. -/
def followLoop (resp : GoStr → Option Envelope) : List GoStr → List FollowEv
  | [] => []
  | u :: us =>
    FollowEv.call u ::
      (match resp u with
       | none => followLoop resp us
       | some envelope =>
         if envelope.IsKnown then followLoop resp us
         else FollowEv.sleep :: followLoop resp us)

/-- Whether the follow call for `u` reports a brand-new repository (an
envelope was returned and `IsKnown` is false). -/
def isNewFollow (resp : GoStr → Option Envelope) (u : GoStr) : Bool :=
  match resp u with
  | none => false
  | some envelope => !envelope.IsKnown

/-- A concrete proto-project used by the C9 counterexample. -/
def protoCx : ProtoProject :=
  ⟨goStr "pk", goStr "x/a", goStr "building", goStr "", false,
    goStr "https://github.com/x/a.git"⟩

/-- A concrete built project used by the C9 counterexample. -/
def projCx : Project :=
  ⟨goStr "rk", [goStr "go"], [], goStr "github_apps", goStr "x/b", goStr "x/b",
    ⟨goStr "https://github.com/x/b", goStr "x/b", goStr ""⟩, goStr "", []⟩

/-- A concrete remote for the C9 counterexample: following `x/a` yields a
brand-new (proto-only, not known) envelope; any other URL yields an
already-known envelope. -/
def respCx (u : GoStr) : Option Envelope :=
  if u = goStr "https://github.com/x/a" then some ⟨none, some protoCx⟩
  else some ⟨some projCx, none⟩

/-- C9 counterexample: with targets `[x/a, x/b]` where `x/a` is brand-new and
`x/b` is already known, the loop sleeps immediately after the new follow, so a
cooldown IS inserted directly before the follow call of the already-known
repository `x/b` — contradicting the claim that no cooldown is inserted
before calls for already-known repositories. -/
theorem followLoop_sleep_before_known_cx :
    followLoop respCx
        [goStr "https://github.com/x/a", goStr "https://github.com/x/b"]
      = [FollowEv.call (goStr "https://github.com/x/a"), FollowEv.sleep,
         FollowEv.call (goStr "https://github.com/x/b")]
      ∧ (respCx (goStr "https://github.com/x/b")).map Envelope.IsKnown
          = some true := by
  exact ⟨by decide, by decide⟩

/-- C9 (amended): after a follow call returns an envelope with
`IsKnown = false`, the `--wait` cooldown is inserted immediately after that
call — hence before the next follow call, whatever its kind — and no cooldown
is inserted after a call that returned a known envelope or failed: the trace
is exactly one `call u` per target, each followed by a `sleep` exactly when
that target's own envelope was new. -/
theorem followLoop_cooldown (resp : GoStr → Option Envelope) (urls : List GoStr) :
    followLoop resp urls
      = urls.flatMap (fun u =>
          FollowEv.call u :: (if isNewFollow resp u then [FollowEv.sleep] else [])) := by
  induction urls with
  | nil => rfl
  | cons u us ih =>
    simp only [followLoop, List.flatMap_cons]
    rw [ih]
    cases hru : resp u with
    | none => simp [isNewFollow, hru]
    | some envelope =>
      cases hk : envelope.IsKnown <;> simp [isNewFollow, hru, hk]

/-! ## The bounded-concurrency Unfollower pool (src/unnamed/part_004) -/

/-- Phase of one work item dispatched through the `Unfollower` pool:
`queued` (before `Unfollow` acquires the semaphore), `admitted` (permit
acquired, worker goroutine spawned, remote call not yet issued), `inFlight`
(remote unfollow call issued, not yet returned), `done` (call returned —
success or failure — and the deferred `sem.Release(1)` / `wg.Done()` ran). -/
inductive WorkPhase
  | queued
  | admitted
  | inFlight
  | done
  deriving DecidableEq

/-- Global state of the `Unfollower` pool: the phase of every dispatched work
item, the remaining weight of the semaphore, and whether `Wait()` has
returned. -/
structure PoolState where
  phases : List WorkPhase
  avail : Nat
  waitReturned : Bool
  deriving DecidableEq

/-- Initial pool state of `NewUnfollower(client, maxWorkers)` with `n` work
items to dispatch: every item queued, full semaphore weight available. -/
def initState (maxWorkers n : Nat) : PoolState :=
  ⟨List.replicate n WorkPhase.queued, maxWorkers, false⟩

/-- Number of remote unfollow calls currently in flight. -/
def inFlightCount (s : PoolState) : Nat :=
  s.phases.countP (fun p => p == WorkPhase.inFlight)

/-- Number of items currently holding a semaphore permit (acquired in
`Unfollow`, released by the deferred `sem.Release(1)` when the item
completes). -/
def permitHolders (s : PoolState) : Nat :=
  s.phases.countP (fun p => p == WorkPhase.admitted || p == WorkPhase.inFlight)

/-- Operational model of the `Unfollower` pool (src/unnamed/part_004):
- `acquire`: `Unfollow` returns from `sem.Acquire(context.Background(), 1)` —
  enabled only while semaphore weight remains — then does `wg.Add(1)` and
  spawns the `unfollower` goroutine;
- `start`: the spawned goroutine issues the remote unfollow call;
- `finish`: the remote call returns (success or failure) and the deferred
  `sem.Release(1)` / `wg.Done()` / `etac.Done(1)` run, returning the permit;
- `waitReturn`: `Wait()`'s `wg.Wait()` unblocks, which its contract allows
  only once every dispatched item has completed.
The weighted semaphore (`golang.org/x/sync/semaphore`) and the
`sync.WaitGroup` are external collaborators modelled by their documented
contracts: `Acquire(ctx, 1)` succeeds only when weight is available, and
`wg.Wait()` returns only when the counter has returned to zero. -/
inductive PoolStep : PoolState → PoolState → Prop
  | acquire (s : PoolState) (i : Nat)
      (hq : s.phases[i]? = some WorkPhase.queued) (ha : 0 < s.avail) :
      PoolStep s ⟨s.phases.set i WorkPhase.admitted, s.avail - 1, s.waitReturned⟩
  | start (s : PoolState) (i : Nat)
      (hq : s.phases[i]? = some WorkPhase.admitted) :
      PoolStep s ⟨s.phases.set i WorkPhase.inFlight, s.avail, s.waitReturned⟩
  | finish (s : PoolState) (i : Nat)
      (hq : s.phases[i]? = some WorkPhase.inFlight) :
      PoolStep s ⟨s.phases.set i WorkPhase.done, s.avail + 1, s.waitReturned⟩
  | waitReturn (s : PoolState)
      (hall : ∀ p ∈ s.phases, p = WorkPhase.done) :
      PoolStep s ⟨s.phases, s.avail, true⟩

/-- States reachable by the pool dispatched with `n` work items under a
semaphore of weight `maxWorkers`. -/
def Reachable (maxWorkers n : Nat) (s : PoolState) : Prop :=
  Relation.ReflTransGen PoolStep (initState maxWorkers n) s

theorem countP_set_eq {α : Type} (p : α → Bool) :
    ∀ (l : List α) (i : Nat) (a b : α), l[i]? = some b →
      (l.set i a).countP p + (if p b then 1 else 0)
        = l.countP p + (if p a then 1 else 0) := by
  intro l
  induction l with
  | nil => intro i a b h; simp at h
  | cons x xs ih =>
    intro i a b h
    cases i with
    | zero =>
      rw [List.getElem?_cons_zero] at h
      injection h with h
      subst h
      simp only [List.set_cons_zero, List.countP_cons]
      omega
    | succ j =>
      rw [List.getElem?_cons_succ] at h
      simp only [List.set_cons_succ, List.countP_cons]
      have := ih j a b h
      omega

theorem countP_le_countP {α : Type} (p q : α → Bool) (l : List α)
    (h : ∀ a ∈ l, p a = true → q a = true) : l.countP p ≤ l.countP q := by
  induction l with
  | nil => simp
  | cons x xs ih =>
    simp only [List.countP_cons]
    have hx := h x (List.mem_cons_self x xs)
    have hxs := ih (fun a ha hp => h a (List.mem_cons_of_mem x ha) hp)
    by_cases hpx : p x = true
    · have := hx hpx
      simp [hpx, this]
      omega
    · have hpx' : p x = false := by

        revert hpx; cases p x <;> simp
      simp [hpx']
      by_cases hqx : q x = true <;> simp [hqx] <;> omega

theorem mem_of_phase_at {s : PoolState} {i : Nat} {w : WorkPhase}
    (h : s.phases[i]? = some w) : w ∈ s.phases := by
  have hi : i < s.phases.length := by
    by_contra hge
    rw [List.getElem?_eq_none (by omega)] at h
    exact Option.noConfusion h
  rw [List.getElem?_eq_getElem hi] at h
  injection h with h
  exact h ▸ s.phases.getElem_mem hi

theorem poolStep_inv {W : Nat} {s t : PoolState} (hst : PoolStep s t)
    (hs : s.avail + permitHolders s = W
      ∧ (s.waitReturned = true → ∀ p ∈ s.phases, p = WorkPhase.done)) :
    t.avail + permitHolders t = W
      ∧ (t.waitReturned = true → ∀ p ∈ t.phases, p = WorkPhase.done) := by
  obtain ⟨hperm, hwait⟩ := hs
  cases hst with
  | acquire i hq ha =>
    constructor
    · have hc := countP_set_eq
        (fun p => p == WorkPhase.admitted || p == WorkPhase.inFlight)
        s.phases i WorkPhase.admitted WorkPhase.queued hq
      simp only [permitHolders] at hperm ⊢
      simp at hc
      omega
    · intro hw
      have hall := hwait hw
      have hmem := mem_of_phase_at hq
      exact absurd (hall _ hmem) (by decide)
  | start i hq =>
    constructor
    · have hc := countP_set_eq
        (fun p => p == WorkPhase.admitted || p == WorkPhase.inFlight)
        s.phases i WorkPhase.inFlight WorkPhase.admitted hq
      simp only [permitHolders] at hperm ⊢
      simp at hc
      omega
    · intro hw
      have hall := hwait hw
      have hmem := mem_of_phase_at hq
      exact absurd (hall _ hmem) (by decide)
  | finish i hq =>
    constructor
    · have hc := countP_set_eq
        (fun p => p == WorkPhase.admitted || p == WorkPhase.inFlight)
        s.phases i WorkPhase.done WorkPhase.inFlight hq
      simp only [permitHolders] at hperm ⊢
      simp at hc
      omega
    · intro hw
      have hall := hwait hw
      have hmem := mem_of_phase_at hq
      exact absurd (hall _ hmem) (by decide)
  | waitReturn hall =>
    exact ⟨hperm, fun _ => hall⟩

theorem reachable_inv (maxWorkers n : Nat) (s : PoolState)
    (h : Reachable maxWorkers n s) :
    s.avail + permitHolders s = maxWorkers
      ∧ (s.waitReturned = true → ∀ p ∈ s.phases, p = WorkPhase.done) := by
  induction h with
  | refl =>
    have h0 : (List.replicate n WorkPhase.queued).countP
        (fun p => p == WorkPhase.admitted || p == WorkPhase.inFlight) = 0 :=
      List.countP_eq_zero.mpr (by
        intro a ha
        rw [List.eq_of_mem_replicate ha]
        decide)
    constructor
    · simp only [initState, permitHolders, h0]
      omega
    · intro hw
      simp [initState] at hw
  | tail _ hbc ih => exact poolStep_inv hbc ih

/-- C2: in every state the pool can reach when dispatching `n` work items
under a semaphore of weight `maxWorkers`, at most `maxWorkers` remote
unfollow calls are in flight — each in-flight call holds a permit acquired
before its worker goroutine started and released only when the item
completes, and the permits sum to the semaphore weight. -/
theorem unfollower_inFlight_le_maxWorkers (maxWorkers n : Nat) (s : PoolState)
    (h : Reachable maxWorkers n s) : inFlightCount s ≤ maxWorkers := by
  have hinv := (reachable_inv maxWorkers n s h).1
  have hmono : inFlightCount s ≤ permitHolders s := by
    apply countP_le_countP
    intro a _ hpa
    cases a <;> simp_all
  omega

/-- Witness for C2: with weight 2 and two work items, the state after
admitting item 0 and issuing its remote call is reachable and has one call in
flight, at most the weight 2. -/
theorem unfollower_inFlight_le_maxWorkers_witness :
    inFlightCount ⟨[WorkPhase.inFlight, WorkPhase.queued], 1, false⟩ ≤ 2 :=
  unfollower_inFlight_le_maxWorkers 2 2
    ⟨[WorkPhase.inFlight, WorkPhase.queued], 1, false⟩
    (Relation.ReflTransGen.tail
      (Relation.ReflTransGen.tail Relation.ReflTransGen.refl
        (PoolStep.acquire (initState 2 2) 0 (by decide) (by decide)))
      (PoolStep.start ⟨[WorkPhase.admitted, WorkPhase.queued], 1, false⟩ 0
        (by decide)))

/-- One human-readable completion log line of the `unfollower` worker body:
`Errorf("error while unfollowing project %s: %s", name, err)` on failure,
`Successf(..., name, ...)` on success. -/
inductive UnfollowLog
  | failure (name : GoStr) (err : GoErr)
  | success (name : GoStr)
  deriving DecidableEq

/-- The two remote unfollow operations of `Client` (src/api.go) that the
worker body selects between; each returns `none` on success or `some err`. -/
structure RemoteUnfollow where
  unfollowProject : GoStr → Option GoErr
  unfollowProtoProject : GoStr → Option GoErr

/-- One work item dispatched through `Unfollower.Unfollow(isProto, key, name,
etac)` (src/unnamed/part_004). -/
structure WorkItem where
  isProto : Bool
  key : GoStr
  name : GoStr
  deriving DecidableEq

/-- Embedding of the completion behaviour of `Unfollower.unfollower`
(src/unnamed/part_004): picks `UnfollowProject` or `UnfollowProtoProject` by
`isProto`, issues the call, and on error logs it with the item's name without
propagating it; on success logs success. The ETA/progress log lines carry no
success information and are omitted. -/
def unfollowerBody (client : RemoteUnfollow) (it : WorkItem) : UnfollowLog :=
  let unfollowFunc :=
    if it.isProto then client.unfollowProtoProject else client.unfollowProject
  match unfollowFunc it.key with
  | some err => UnfollowLog.failure it.name err
  | none => UnfollowLog.success it.name

/-- The completion logs of a whole batch of dispatched work items: every item
runs its own worker body, independent of the outcomes of its siblings. -/
def runUnfollower (client : RemoteUnfollow) (items : List WorkItem) : List UnfollowLog :=
  items.map (unfollowerBody client)

/-- Embedding of the return value of `Unfollower.Wait` (src/unnamed/part_004):
after `wg.Wait()` and the completion banner it is literally `return nil`. -/
def UnfollowerWaitResult : Option GoErr := none

/-- C4: every dispatched work item produces exactly one completion log entry;
an item's entry is a failure log carrying the item's own name and error
exactly when its own remote call failed, and a success log otherwise —
failures neither remove nor alter sibling or later items. `Wait()` returns
only in pool states where every dispatched item has completed, and its return
value is `nil` no matter how many items failed. -/
theorem unfollower_partial_failure (client : RemoteUnfollow) (items : List WorkItem) :
    (runUnfollower client items).length = items.length
      ∧ (∀ i : Nat, (runUnfollower client items)[i]?
            = (items[i]?).map (unfollowerBody client))
      ∧ (∀ it : WorkItem,
          (unfollowerBody client it = UnfollowLog.success it.name
            ↔ (if it.isProto then client.unfollowProtoProject
                else client.unfollowProject) it.key = none)
          ∧ (∀ e, unfollowerBody client it = UnfollowLog.failure it.name e
              ↔ (if it.isProto then client.unfollowProtoProject
                  else client.unfollowProject) it.key = some e))
      ∧ UnfollowerWaitResult = none
      ∧ (∀ maxWorkers n : Nat, ∀ s : PoolState,
          Reachable maxWorkers n s → s.waitReturned = true →
            ∀ p ∈ s.phases, p = WorkPhase.done) := by
  refine ⟨List.length_map _ _, fun i => List.getElem?_map _ _ _, fun it => ?_, rfl,
    fun maxWorkers n s hreach hw => (reachable_inv maxWorkers n s hreach).2 hw⟩
  constructor
  · cases hc : (if it.isProto then client.unfollowProtoProject
        else client.unfollowProject) it.key <;>
      simp [unfollowerBody, hc]
  · intro e
    cases hc : (if it.isProto then client.unfollowProtoProject
        else client.unfollowProject) it.key <;>
      simp [unfollowerBody, hc]

/-- Remote for the C4 witness, reproducing the spec's example: unfollow calls
for keys `k2`, `k5`, `k9` fail, all others succeed. -/
def clientCx : RemoteUnfollow :=
  ⟨fun key =>
      if key = goStr "k2" ∨ key = goStr "k5" ∨ key = goStr "k9"
      then some (goStr "boom") else none,
    fun _ => none⟩

/-- Ten work items for the C4 witness. -/
def itemsCx : List WorkItem :=
  [⟨false, goStr "k1", goStr "p1"⟩, ⟨false, goStr "k2", goStr "p2"⟩,
   ⟨false, goStr "k3", goStr "p3"⟩, ⟨false, goStr "k4", goStr "p4"⟩,
   ⟨false, goStr "k5", goStr "p5"⟩, ⟨false, goStr "k6", goStr "p6"⟩,
   ⟨false, goStr "k7", goStr "p7"⟩, ⟨false, goStr "k8", goStr "p8"⟩,
   ⟨false, goStr "k9", goStr "p9"⟩, ⟨false, goStr "k10", goStr "p10"⟩]

/-- Witness for C4: with items `{2,5,9}` of 10 failing, all 10 completion
logs are produced (items `{1,3,4,6,7,8,10}` successful, the three failures
logged with their own names), and a state with `Wait()` returned is reachable
with every item done. -/
theorem unfollower_partial_failure_witness :
    (runUnfollower clientCx itemsCx).length = itemsCx.length
      ∧ (∀ p ∈ (⟨[], 1, true⟩ : PoolState).phases, p = WorkPhase.done)
      ∧ runUnfollower clientCx itemsCx
          = [UnfollowLog.success (goStr "p1"),
             UnfollowLog.failure (goStr "p2") (goStr "boom"),
             UnfollowLog.success (goStr "p3"), UnfollowLog.success (goStr "p4"),
             UnfollowLog.failure (goStr "p5") (goStr "boom"),
             UnfollowLog.success (goStr "p6"), UnfollowLog.success (goStr "p7"),
             UnfollowLog.success (goStr "p8"),
             UnfollowLog.failure (goStr "p9") (goStr "boom"),
             UnfollowLog.success (goStr "p10")] :=
  ⟨(unfollower_partial_failure clientCx itemsCx).1,
    (unfollower_partial_failure clientCx itemsCx).2.2.2.2 1 0 ⟨[], 1, true⟩
      (Relation.ReflTransGen.tail Relation.ReflTransGen.refl
        (PoolStep.waitReturn (initState 1 0) (by decide))) rfl,
    by decide⟩
